import Mathlib

/-!
Shallow embedding of the priority-scoring and intersection engine of the
movienight repository (the `priority` module: `computeAggregateScore`,
`getUnseenIntersection`, `getIntersectionWithScores`, `countUnseenBy`),
together with proofs of the specified properties.

JavaScript collection primitives used by the source are modelled explicitly:
`Array.prototype.indexOf` (which returns `-1` when the element is absent) as
`jsIndexOf`, `new Set(array)` (insertion-ordered, keeping the first occurrence
of each element) as `setOfList`, and `new Map(pairs).get` (where a later pair
with the same key overwrites an earlier one) as `movieMapGet`.
`Array.prototype.sort` with comparator `(a, b) => b.score - a.score` is a
stable sort into descending score order, modelled by `List.mergeSort`.
-/

namespace MovieNight

/-- A movie record from the catalog.  The engine reads only `tmdbId`; `title`
and `year` stand in for the display-only metadata fields, which the engine
never inspects. -/
structure Movie where
  tmdbId : String
  title : String
  year : Int
  deriving DecidableEq, Repr

/-- A user record: a display name and the ordered list of unseen movie IDs
(index 0 = highest priority).  The timestamp fields of the source record are
display-only and never read by the engine. -/
structure User where
  name : String
  unseenMovies : List String
  deriving DecidableEq, Repr

/-- A scored intersection entry, as produced by `getIntersectionWithScores`. -/
structure AggregateMovieScore where
  movieId : String
  score : Int
  movie : Movie
  deriving DecidableEq, Repr

/-- JavaScript `Array.prototype.indexOf`: the zero-based index of the first
occurrence of `movieId`, or `-1` when it does not occur. -/
def jsIndexOf (movieId : String) : List String → Int
  | [] => -1
  | x :: xs =>
    if x = movieId then 0
    else
      let rest := jsIndexOf movieId xs
      if rest = -1 then -1 else rest + 1

/-- `computeAggregateScore(movieId, users)` from the source: a fold over the
users that adds `user.unseenMovies.length - index` for each user whose list
contains the movie (`indexOf` returning `-1` contributes nothing). -/
def computeAggregateScore (movieId : String) (users : List User) : Int :=
  users.foldl
    (fun score user =>
      let index := jsIndexOf movieId user.unseenMovies
      if index = -1 then score
      else score + ((user.unseenMovies.length : Int) - index))
    0

/-- The per-user contribution inside `computeAggregateScore`'s fold. -/
def contrib (movieId : String) (user : User) : Int :=
  let index := jsIndexOf movieId user.unseenMovies
  if index = -1 then 0
  else (user.unseenMovies.length : Int) - index

/-- JavaScript `new Set(l)` read back with `Array.from`: the elements of `l`
with duplicates removed, keeping the first occurrence of each element in
order.  `seen` accumulates the elements already emitted. -/
def setOfListAux (seen : List String) : List String → List String
  | [] => []
  | x :: xs =>
    if x ∈ seen then setOfListAux seen xs
    else x :: setOfListAux (x :: seen) xs

/-- `new Set(l)` as an insertion-ordered duplicate-free list. -/
def setOfList (l : List String) : List String :=
  setOfListAux [] l

/-- `getUnseenIntersection(users)` from the source: empty for no users;
otherwise seed a set from the first user's list and, for each subsequent
user, delete every ID that user does not have.  Deleting the currently
visited element of a JS `Set` during iteration keeps exactly the elements
passing the test, in order, which is a `filter`. -/
def getUnseenIntersection (users : List User) : List String :=
  match users with
  | [] => []
  | first :: rest =>
    rest.foldl
      (fun acc user => acc.filter (fun movieId => decide (movieId ∈ user.unseenMovies)))
      (setOfList first.unseenMovies)

/-- `new Map(movies.map((m) => [m.tmdbId, m])).get movieId`: the last movie in
the list with the given `tmdbId` (later pairs overwrite earlier ones), or
`none` when absent. -/
def movieMapGet (movies : List Movie) (movieId : String) : Option Movie :=
  movies.foldl (fun acc m => if m.tmdbId = movieId then some m else acc) none

/-- `getIntersectionWithScores(users, movies)` from the source: map each
intersection ID to a scored entry joined with its catalog record, drop the
entries whose lookup failed (the `.filter((item) => item.movie)` over the
`movieMap.get(movieId)!` join), and stably sort by descending score. -/
def getIntersectionWithScores (users : List User) (movies : List Movie) :
    List AggregateMovieScore :=
  let intersection := getUnseenIntersection users
  (intersection.filterMap
      (fun movieId =>
        match movieMapGet movies movieId with
        | some movie =>
          some { movieId := movieId
                 score := computeAggregateScore movieId users
                 movie := movie }
        | none => none)).mergeSort
    (fun a b => decide (b.score ≤ a.score))

/-- `countUnseenBy(movieId, users)` from the source: the number of users whose
unseen list includes the movie. -/
def countUnseenBy (movieId : String) (users : List User) : Nat :=
  (users.filter (fun user => decide (movieId ∈ user.unseenMovies))).length

/-! Concrete users and movies used by the witnesses, taken from the spec's
seed scenarios. -/

def alice : User := { name := "Alice", unseenMovies := ["movie1", "movie2"] }

def bob : User := { name := "Bob", unseenMovies := ["movie2", "movie1", "movie3"] }

def carol : User := { name := "Carol", unseenMovies := ["movie1", "movie3"] }

def movieOne : Movie := { tmdbId := "movie1", title := "One", year := 2001 }

def movieTwo : Movie := { tmdbId := "movie2", title := "Two", year := 2002 }

example : computeAggregateScore "movie1" [alice, bob] = 4 := by decide

/-! ### Properties of `jsIndexOf` -/

theorem jsIndexOf_neg_one_le (m : String) (l : List String) : -1 ≤ jsIndexOf m l := by
  induction l with
  | nil => simp [jsIndexOf]
  | cons x xs ih =>
    simp only [jsIndexOf]
    split
    · norm_num
    · split <;> omega

theorem jsIndexOf_eq_neg_one_iff (m : String) (l : List String) :
    jsIndexOf m l = -1 ↔ m ∉ l := by
  induction l with
  | nil => simp [jsIndexOf]
  | cons x xs ih =>
    have hge := jsIndexOf_neg_one_le m xs
    simp only [jsIndexOf, List.mem_cons]
    split
    · rename_i hx
      subst hx
      simp
    · rename_i hx
      split
      · rename_i hnone
        have hnot := ih.mp hnone
        simp only [true_iff]
        rintro (rfl | hmem)
        · exact hx rfl
        · exact hnot hmem
      · rename_i hsome
        have hmem : m ∈ xs := by
          by_contra hcontra
          exact hsome (ih.mpr hcontra)
        constructor
        · intro h
          omega
        · intro h
          exact absurd (Or.inr hmem) h

theorem jsIndexOf_spec_of_mem (m : String) (l : List String) (h : m ∈ l) :
    0 ≤ jsIndexOf m l ∧ jsIndexOf m l < (l.length : Int) ∧
      l[(jsIndexOf m l).toNat]? = some m := by
  induction l with
  | nil => cases h
  | cons x xs ih =>
    simp only [jsIndexOf]
    by_cases hx : x = m
    · subst hx
      simp
    · have hmem : m ∈ xs := by
        rcases List.mem_cons.mp h with rfl | hmem
        · exact absurd rfl hx
        · exact hmem
      have hne : jsIndexOf m xs ≠ -1 := fun hc =>
        ((jsIndexOf_eq_neg_one_iff m xs).mp hc) hmem
      obtain ⟨h0, hlt, hget⟩ := ih hmem
      rw [if_neg hx, if_neg hne]
      refine ⟨by omega, by simp; omega, ?_⟩
      have htn : (jsIndexOf m xs + 1).toNat = (jsIndexOf m xs).toNat + 1 := by omega
      rw [htn, List.getElem?_cons_succ]
      exact hget

theorem jsIndexOf_eq_of_getElem? (m : String) (l : List String) (hnd : l.Nodup)
    (i : Nat) (hi : l[i]? = some m) : jsIndexOf m l = (i : Int) := by
  obtain ⟨hilt, hival⟩ := List.getElem?_eq_some_iff.mp hi
  have hmem : m ∈ l := hival ▸ List.getElem_mem hilt
  obtain ⟨h0, hlt, hget⟩ := jsIndexOf_spec_of_mem m l hmem
  obtain ⟨hjlt, hjval⟩ := List.getElem?_eq_some_iff.mp hget
  have heq : (jsIndexOf m l).toNat = i :=
    (hnd.getElem_inj_iff).mp (hjval.trans hival.symm)
  omega

/-! ### `computeAggregateScore` as a sum of per-user contributions -/

theorem contrib_eq_zero_of_not_mem {movieId : String} {u : User}
    (h : movieId ∉ u.unseenMovies) : contrib movieId u = 0 := by
  unfold contrib
  rw [if_pos ((jsIndexOf_eq_neg_one_iff _ _).mpr h)]

theorem one_le_contrib_of_mem {movieId : String} {u : User}
    (h : movieId ∈ u.unseenMovies) : 1 ≤ contrib movieId u := by
  unfold contrib
  have hne : jsIndexOf movieId u.unseenMovies ≠ -1 := fun hc =>
    ((jsIndexOf_eq_neg_one_iff _ _).mp hc) h
  obtain ⟨h0, hlt, _⟩ := jsIndexOf_spec_of_mem movieId u.unseenMovies h
  rw [if_neg hne]
  omega

theorem contrib_nonneg (movieId : String) (u : User) : 0 ≤ contrib movieId u := by
  by_cases h : movieId ∈ u.unseenMovies
  · exact le_trans (by norm_num) (one_le_contrib_of_mem h)
  · rw [contrib_eq_zero_of_not_mem h]

theorem computeAggregateScore_eq_sum (movieId : String) (users : List User) :
    computeAggregateScore movieId users = (users.map (contrib movieId)).sum := by
  suffices h : ∀ a : Int,
      users.foldl
        (fun score user =>
          let index := jsIndexOf movieId user.unseenMovies
          if index = -1 then score
          else score + ((user.unseenMovies.length : Int) - index))
        a = a + (users.map (contrib movieId)).sum by
    simpa [computeAggregateScore] using h 0
  induction users with
  | nil => intro a; simp
  | cons u us ih =>
    intro a
    simp only [List.foldl_cons, List.map_cons, List.sum_cons, ih]
    unfold contrib
    dsimp only
    split <;> ring

theorem computeAggregateScore_nonneg (movieId : String) (users : List User) :
    0 ≤ computeAggregateScore movieId users := by
  rw [computeAggregateScore_eq_sum]
  refine List.sum_nonneg ?_
  intro x hx
  obtain ⟨u, _, rfl⟩ := List.mem_map.mp hx
  exact contrib_nonneg movieId u

/-! ### Properties of `setOfList` -/

theorem mem_setOfListAux (x : String) (l : List String) :
    ∀ seen : List String, x ∈ setOfListAux seen l ↔ x ∈ l ∧ x ∉ seen := by
  induction l with
  | nil => intro seen; simp [setOfListAux]
  | cons y ys ih =>
    intro seen
    simp only [setOfListAux]
    split
    · rename_i hy
      rw [ih seen]
      simp only [List.mem_cons]
      constructor
      · rintro ⟨h1, h2⟩
        exact ⟨Or.inr h1, h2⟩
      · rintro ⟨rfl | h1, h2⟩
        · exact absurd hy h2
        · exact ⟨h1, h2⟩
    · rename_i hy
      simp only [List.mem_cons, ih (y :: seen), List.mem_cons]
      constructor
      · rintro (rfl | ⟨h1, h2⟩)
        · exact ⟨Or.inl rfl, hy⟩
        · refine ⟨Or.inr h1, fun hc => h2 (Or.inr hc)⟩
      · rintro ⟨rfl | h1, h2⟩
        · exact Or.inl rfl
        · by_cases hxy : x = y
          · exact Or.inl hxy
          · exact Or.inr ⟨h1, by simp [hxy, h2]⟩

theorem mem_setOfList (x : String) (l : List String) : x ∈ setOfList l ↔ x ∈ l := by
  rw [setOfList, mem_setOfListAux]
  simp

theorem setOfListAux_sublist (l : List String) :
    ∀ seen : List String, (setOfListAux seen l).Sublist l := by
  induction l with
  | nil => intro seen; simp [setOfListAux]
  | cons y ys ih =>
    intro seen
    simp only [setOfListAux]
    split
    · exact (ih seen).cons y
    · exact (ih (y :: seen)).cons₂ y

theorem setOfList_sublist (l : List String) : (setOfList l).Sublist l :=
  setOfListAux_sublist l []

theorem setOfListAux_nodup (l : List String) :
    ∀ seen : List String, (setOfListAux seen l).Nodup := by
  induction l with
  | nil => intro seen; simp [setOfListAux]
  | cons y ys ih =>
    intro seen
    simp only [setOfListAux]
    split
    · exact ih seen
    · rw [List.nodup_cons]
      refine ⟨fun hc => ?_, ih (y :: seen)⟩
      exact ((mem_setOfListAux y ys (y :: seen)).mp hc).2 (List.mem_cons_self y seen)

theorem setOfList_nodup (l : List String) : (setOfList l).Nodup :=
  setOfListAux_nodup l []

/-! ### The intersection fold -/

theorem mem_interFoldl (x : String) (rest : List User) :
    ∀ init : List String,
      x ∈ rest.foldl
          (fun acc user => acc.filter (fun movieId => decide (movieId ∈ user.unseenMovies)))
          init
        ↔ x ∈ init ∧ ∀ u ∈ rest, x ∈ u.unseenMovies := by
  induction rest with
  | nil => intro init; simp
  | cons u us ih =>
    intro init
    simp only [List.foldl_cons, ih, List.mem_filter, decide_eq_true_eq,
      List.forall_mem_cons]
    tauto

theorem interFoldl_sublist (rest : List User) :
    ∀ init : List String,
      (rest.foldl
          (fun acc user => acc.filter (fun movieId => decide (movieId ∈ user.unseenMovies)))
          init).Sublist init := by
  induction rest with
  | nil => intro init; simp
  | cons u us ih =>
    intro init
    simp only [List.foldl_cons]
    exact (ih _).trans (List.filter_sublist init)

theorem mem_getUnseenIntersection (x : String) (users : List User) :
    x ∈ getUnseenIntersection users ↔ users ≠ [] ∧ ∀ u ∈ users, x ∈ u.unseenMovies := by
  cases users with
  | nil => simp [getUnseenIntersection]
  | cons first rest =>
    simp only [getUnseenIntersection]
    rw [mem_interFoldl, mem_setOfList]
    simp [List.forall_mem_cons]

/-! ### `countUnseenBy` as a sum of indicators -/

theorem countUnseenBy_cons (movieId : String) (u : User) (us : List User) :
    countUnseenBy movieId (u :: us)
      = (if movieId ∈ u.unseenMovies then 1 else 0) + countUnseenBy movieId us := by
  unfold countUnseenBy
  rw [List.filter_cons]
  split
  · rename_i h
    simp at h
    simp [h, Nat.add_comm]
  · rename_i h
    simp at h
    simp [h]

/-! ### Claim theorems -/

/-- C1: `computeAggregateScore(movieId, users)` equals the sum over all users of
the per-user contribution, where a user whose duplicate-free `unseenMovies`
sequence contains `movieId` at zero-based position `i` in a sequence of length
`n` contributes `n - i`, and a user whose sequence does not contain `movieId`
contributes `0`. -/
theorem computeAggregateScore_is_positional_sum (movieId : String) (users : List User)
    (h : ∀ u ∈ users, u.unseenMovies.Nodup) :
    computeAggregateScore movieId users = (users.map (contrib movieId)).sum ∧
      (∀ u ∈ users, ∀ i : Nat, u.unseenMovies[i]? = some movieId →
        contrib movieId u = (u.unseenMovies.length : Int) - (i : Int)) ∧
      ∀ u ∈ users, movieId ∉ u.unseenMovies → contrib movieId u = 0 := by
  refine ⟨computeAggregateScore_eq_sum movieId users, ?_,
    fun u _ hm => contrib_eq_zero_of_not_mem hm⟩
  intro u hu i hi
  have hidx := jsIndexOf_eq_of_getElem? movieId u.unseenMovies (h u hu) i hi
  have hmem : movieId ∈ u.unseenMovies := by
    obtain ⟨hlt, hval⟩ := List.getElem?_eq_some_iff.mp hi
    exact hval ▸ List.getElem_mem hlt
  have hne : jsIndexOf movieId u.unseenMovies ≠ -1 := fun hc =>
    ((jsIndexOf_eq_neg_one_iff _ _).mp hc) hmem
  unfold contrib
  rw [if_neg hne, hidx]

/-- Witness for C1 at the spec's two-user seed scenario (Alice and Bob). -/
theorem computeAggregateScore_is_positional_sum_witness :
    (∀ u ∈ [alice, bob], u.unseenMovies.Nodup) ∧
      (computeAggregateScore "movie1" [alice, bob]
          = ([alice, bob].map (contrib "movie1")).sum ∧
        (∀ u ∈ [alice, bob], ∀ i : Nat, u.unseenMovies[i]? = some "movie1" →
          contrib "movie1" u = (u.unseenMovies.length : Int) - (i : Int)) ∧
        ∀ u ∈ [alice, bob], "movie1" ∉ u.unseenMovies → contrib "movie1" u = 0) :=
  ⟨by decide, computeAggregateScore_is_positional_sum "movie1" [alice, bob] (by decide)⟩

/-- C4: the aggregate score is a non-negative integer, and it is `0` exactly
when `users` is empty or no user's `unseenMovies` list contains `movieId`. -/
theorem computeAggregateScore_nonneg_and_zero_iff (movieId : String) (users : List User) :
    0 ≤ computeAggregateScore movieId users ∧
      (computeAggregateScore movieId users = 0 ↔
        users = [] ∨ ∀ u ∈ users, movieId ∉ u.unseenMovies) := by
  refine ⟨computeAggregateScore_nonneg movieId users, ?_⟩
  rw [computeAggregateScore_eq_sum]
  constructor
  · intro hzero
    right
    intro u hu hmem
    have h1 : 1 ≤ contrib movieId u := one_le_contrib_of_mem hmem
    have hle : contrib movieId u ≤ (users.map (contrib movieId)).sum := by
      refine List.single_le_sum ?_ _ (List.mem_map_of_mem _ hu)
      intro x hx
      obtain ⟨v, _, rfl⟩ := List.mem_map.mp hx
      exact contrib_nonneg movieId v
    omega
  · rintro (rfl | hall)
    · simp
    · refine List.sum_eq_zero ?_
      intro x hx
      obtain ⟨u, hu, rfl⟩ := List.mem_map.mp hx
      exact contrib_eq_zero_of_not_mem (hall u hu)

/-- C8: `countUnseenBy(movieId, users)` is the number of users whose
`unseenMovies` sequence contains `movieId` (an unweighted, position-independent
indicator sum), and it is `0` exactly when `users` is empty or no user's list
contains `movieId`. -/
theorem countUnseenBy_counts_users (movieId : String) (users : List User) :
    countUnseenBy movieId users
        = (users.map (fun u => if movieId ∈ u.unseenMovies then 1 else 0)).sum ∧
      (countUnseenBy movieId users = 0 ↔
        users = [] ∨ ∀ u ∈ users, movieId ∉ u.unseenMovies) := by
  constructor
  · induction users with
    | nil => rfl
    | cons u us ih => rw [countUnseenBy_cons, List.map_cons, List.sum_cons, ih]
  · unfold countUnseenBy
    rw [List.length_eq_zero, List.filter_eq_nil_iff]
    simp only [decide_eq_true_eq]
    constructor
    · intro h
      exact Or.inr h
    · rintro (rfl | h)
      · simp
      · exact h

/-- C9: the unweighted count never exceeds the weighted aggregate score — every
user counted by `countUnseenBy` contributes at least `1` to the score. -/
theorem countUnseenBy_le_computeAggregateScore (movieId : String) (users : List User) :
    (countUnseenBy movieId users : Int) ≤ computeAggregateScore movieId users := by
  rw [computeAggregateScore_eq_sum]
  induction users with
  | nil => simp [countUnseenBy]
  | cons u us ih =>
    rw [countUnseenBy_cons, List.map_cons, List.sum_cons]
    by_cases h : movieId ∈ u.unseenMovies
    · have h1 : 1 ≤ contrib movieId u := one_le_contrib_of_mem h
      rw [if_pos h]
      push_cast
      omega
    · rw [contrib_eq_zero_of_not_mem h, if_neg h]
      push_cast
      omega

/-- C6: for every list of users, even one holding duplicate IDs inside a user's
list, `getUnseenIntersection(users)` contains no duplicate IDs. -/
theorem getUnseenIntersection_nodup (users : List User) :
    (getUnseenIntersection users).Nodup := by
  cases users with
  | nil => simp [getUnseenIntersection]
  | cons first rest =>
    simp only [getUnseenIntersection]
    exact List.Nodup.sublist (interFoldl_sublist rest _) (setOfList_nodup _)

/-- C10: for every non-empty list of users, `getUnseenIntersection` returns a
subsequence of the first user's `unseenMovies` list (first-occurrence order),
preserving that user's relative ordering. -/
theorem getUnseenIntersection_sublist_first (first : User) (rest : List User) :
    (getUnseenIntersection (first :: rest)).Sublist first.unseenMovies := by
  simp only [getUnseenIntersection]
  exact (interFoldl_sublist rest _).trans (setOfList_sublist _)

/-- C3: the three edge cases of `getUnseenIntersection`: zero users yield the
empty sequence; one user yields exactly that user's `unseenMovies` membership;
two or more users yield membership exactly when the ID appears in every user's
list. -/
theorem getUnseenIntersection_edge_cases (users : List User) :
    (users = [] → getUnseenIntersection users = []) ∧
      (∀ u : User, users = [u] →
        ∀ x : String, x ∈ getUnseenIntersection users ↔ x ∈ u.unseenMovies) ∧
      (2 ≤ users.length →
        ∀ x : String,
          x ∈ getUnseenIntersection users ↔ ∀ u ∈ users, x ∈ u.unseenMovies) := by
  refine ⟨?_, ?_, ?_⟩
  · rintro rfl
    rfl
  · rintro u rfl x
    rw [mem_getUnseenIntersection]
    simp
  · intro hlen x
    have hne : users ≠ [] := by
      rintro rfl
      simp at hlen
    rw [mem_getUnseenIntersection]
    simp [hne]

/-- C5: `getUnseenIntersection` has the same membership on any permutation of
the user list. -/
theorem getUnseenIntersection_perm_invariant (users users' : List User)
    (h : users.Perm users') (x : String) :
    x ∈ getUnseenIntersection users ↔ x ∈ getUnseenIntersection users' := by
  rw [mem_getUnseenIntersection, mem_getUnseenIntersection]
  constructor
  · rintro ⟨h1, h2⟩
    refine ⟨fun hc => h1 ?_, fun u hu => h2 u (h.mem_iff.mpr hu)⟩
    subst hc
    exact h.eq_nil
  · rintro ⟨h1, h2⟩
    refine ⟨fun hc => h1 ?_, fun u hu => h2 u (h.mem_iff.mp hu)⟩
    subst hc
    exact h.symm.eq_nil

/-- Witness for C5: swapping Alice and Bob leaves membership of the
intersection unchanged. -/
theorem getUnseenIntersection_perm_invariant_witness :
    ([alice, bob].Perm [bob, alice]) ∧
      ("movie1" ∈ getUnseenIntersection [alice, bob] ↔
        "movie1" ∈ getUnseenIntersection [bob, alice]) :=
  ⟨List.Perm.swap bob alice [],
    getUnseenIntersection_perm_invariant [alice, bob] [bob, alice]
      (List.Perm.swap bob alice []) "movie1"⟩

/-- Characterization of membership in `getIntersectionWithScores`: exactly the
intersection IDs whose catalog lookup succeeds, with the aggregate score and
the resolved record attached. -/
theorem mem_getIntersectionWithScores (users : List User) (movies : List Movie)
    (e : AggregateMovieScore) :
    e ∈ getIntersectionWithScores users movies ↔
      e.movieId ∈ getUnseenIntersection users ∧
        movieMapGet movies e.movieId = some e.movie ∧
        e.score = computeAggregateScore e.movieId users := by
  simp only [getIntersectionWithScores]
  rw [(List.mergeSort_perm _ _).mem_iff, List.mem_filterMap]
  constructor
  · rintro ⟨a, ha, hfa⟩
    cases hm : movieMapGet movies a with
    | none => rw [hm] at hfa; simp at hfa
    | some movie =>
      rw [hm] at hfa
      simp only [Option.some.injEq] at hfa
      subst hfa
      exact ⟨ha, hm, rfl⟩
  · rintro ⟨hmem, hlook, hscore⟩
    refine ⟨e.movieId, hmem, ?_⟩
    rw [hlook]
    cases e with
    | mk movieId score movie =>
      simp only [Option.some.injEq] at hscore ⊢
      simp only at hlook hmem
      rw [hscore]

/-- C2: every entry of `getIntersectionWithScores(users, movies)` has a
`movieId` belonging to `getUnseenIntersection(users)` and a `score` equal to
`computeAggregateScore(movieId, users)`, and the output is sorted in
descending order of `score`. -/
theorem getIntersectionWithScores_sound_and_sorted (users : List User)
    (movies : List Movie) :
    (∀ e ∈ getIntersectionWithScores users movies,
        e.movieId ∈ getUnseenIntersection users ∧
          e.score = computeAggregateScore e.movieId users) ∧
      (getIntersectionWithScores users movies).Pairwise
        (fun a b => b.score ≤ a.score) := by
  constructor
  · intro e he
    obtain ⟨hmem, _, hscore⟩ := (mem_getIntersectionWithScores users movies e).mp he
    exact ⟨hmem, hscore⟩
  · have htrans : ∀ a b c : AggregateMovieScore,
        decide (b.score ≤ a.score) = true → decide (c.score ≤ b.score) = true →
          decide (c.score ≤ a.score) = true := by
      intro a b c h1 h2
      simp only [decide_eq_true_eq] at *
      omega
    have htotal : ∀ a b : AggregateMovieScore,
        (decide (b.score ≤ a.score) || decide (a.score ≤ b.score)) = true := by
      intro a b
      simp only [Bool.or_eq_true, decide_eq_true_eq]
      omega
    simp only [getIntersectionWithScores]
    exact (List.sorted_mergeSort htrans htotal _).imp fun h => of_decide_eq_true h

/-- C7: `getIntersectionWithScores` signals no error: empty users or an empty
catalog yield an empty result, an intersection ID whose catalog lookup fails
is silently omitted, and every intersection ID whose lookup succeeds appears
with its resolved record and aggregate score. -/
theorem getIntersectionWithScores_error_free (users : List User) (movies : List Movie) :
    (users = [] → getIntersectionWithScores users movies = []) ∧
      (movies = [] → getIntersectionWithScores users movies = []) ∧
      (∀ movieId ∈ getUnseenIntersection users,
        movieMapGet movies movieId = none →
          ∀ e ∈ getIntersectionWithScores users movies, e.movieId ≠ movieId) ∧
      (∀ movieId ∈ getUnseenIntersection users, ∀ m : Movie,
        movieMapGet movies movieId = some m →
          ∃ e ∈ getIntersectionWithScores users movies,
            e.movieId = movieId ∧ e.movie = m ∧
              e.score = computeAggregateScore movieId users) := by
  refine ⟨?_, ?_, ?_, ?_⟩
  · rintro rfl
    simp [getIntersectionWithScores, getUnseenIntersection]
  · rintro rfl
    have hnil : (getUnseenIntersection users).filterMap
        (fun movieId =>
          match movieMapGet ([] : List Movie) movieId with
          | some movie =>
            some { movieId := movieId
                   score := computeAggregateScore movieId users
                   movie := movie }
          | none => (none : Option AggregateMovieScore)) = [] :=
      List.filterMap_eq_nil_iff.mpr fun a _ => rfl
    simp only [getIntersectionWithScores, hnil, List.mergeSort_nil]
  · intro movieId _ hnone e he heq
    obtain ⟨_, hlook, _⟩ := (mem_getIntersectionWithScores users movies e).mp he
    rw [heq, hnone] at hlook
    exact Option.noConfusion hlook
  · intro movieId hmem m hsome
    refine ⟨{ movieId := movieId
              score := computeAggregateScore movieId users
              movie := m }, ?_, rfl, rfl, rfl⟩
    exact (mem_getIntersectionWithScores users movies _).mpr ⟨hmem, hsome, rfl⟩
example : computeAggregateScore "movie1" [] = 0 := by decide
example : countUnseenBy "movie1" [alice, { name := "Bob", unseenMovies := ["movie2", "movie3"] }, carol] = 2 := by decide
example : getUnseenIntersection [alice, bob] = ["movie1", "movie2"] := by decide

end MovieNight
